import Mathlib

/-!
# Verification of the hugging-tree incremental code-graph builder

Shallow embedding of the system's core data model and operations
(GraphStore, ContentInventory-driven scan, ImportResolver, EmbeddingIndex,
ContextExpander), of the example-fixture `UserService`, and of the
presentation layer's backend-operation surface, together with proofs of
the specified invariants.
-/

namespace HuggingTree

/-! ## Data model -/

/-- Modelled from the spec: the composite key `path::name[#n]` uniquely
identifying a DefinitionRecord within a project (section 3, GLOSSARY);
the occurrence index `occ` is the positional suffix used to disambiguate
overloaded/duplicate names within one file. -/
structure DefKey where
  path : String
  name : String
  occ : Nat
deriving DecidableEq

/-- Modelled from the spec: the tagged variant of definition kinds
(function | class | method), section 3 and section 9. -/
inductive DefKind
  | functionKind
  | classKind
  | methodKind
deriving DecidableEq

/-- Modelled from the spec: a DefinitionRecord — identity is the composite
key, attributes are kind, signature text, raw source text and line span
(section 3). -/
structure DefRecord where
  key : DefKey
  kind : DefKind
  signature : String
  source : String
  startLine : Nat
  endLine : Nat
deriving DecidableEq

/-- Modelled from the spec: the persistent structural graph of the
GraphStore — FileRecords (path with content fingerprint), DefinitionRecords,
and DEFINES / IMPORTS / CALLS edges (sections 3 and 4.4). -/
structure GraphState where
  files : List (String × String)
  defs : List DefRecord
  defines : List (String × DefKey)
  imports : List (String × String)
  calls : List (DefKey × DefKey)
deriving DecidableEq

/-- The empty graph: state of the GraphStore before any scan. -/
def emptyGraph : GraphState := ⟨[], [], [], [], []⟩

/-- Paths of all FileRecords in an association list of file records. -/
def pathsOf (files : List (String × String)) : List String := files.map (·.1)

/-- Fingerprint lookup in the FileRecord association list. -/
def lookupFp (files : List (String × String)) (p : String) : Option String :=
  (files.find? (fun f => f.1 == p)).map (·.2)

/-- Upsert a FileRecord: replace the fingerprint if the path is present,
append a new record otherwise (section 4.4 step 1). -/
def upsertFile : List (String × String) → String → String →
    List (String × String)
  | [], p, fp => [(p, fp)]
  | f :: fs, p, fp => if f.1 == p then (p, fp) :: fs else f :: upsertFile fs p fp

/-! ## ImportResolver (spec section 4.3) -/

/-- Modelled from the spec: the supported source extensions tried as
candidate suffixes by the ImportResolver (section 4.3; the grammar-aware
parser front-end targets TypeScript/JavaScript sources). -/
def supportedExtensions : List String := [".ts", ".tsx", ".js", ".jsx"]

/-- Modelled from the spec: the directory-index filename tried by the
ImportResolver (section 4.3). -/
def indexFileName : String := "index"

/-- Modelled from the spec: a specifier is relative when it starts with a
relative-path marker, `./` or `../` (section 4.3). -/
def isRelative (s : String) : Bool :=
  match s.toList with
  | '.' :: '/' :: _ => true
  | '.' :: '.' :: '/' :: _ => true
  | _ => false

/-- Split a character list on a separator character (the semantics of
`String.splitOn` for a single-character separator). -/
def splitOnChar (c : Char) : List Char → List (List Char)
  | [] => [[]]
  | x :: xs =>
    if x == c then [] :: splitOnChar c xs
    else
      match splitOnChar c xs with
      | [] => [[x]]
      | s :: ss => (x :: s) :: ss

/-- The `/`-separated segments of a path. -/
def splitSegs (p : String) : List String :=
  (splitOnChar '/' p.toList).map String.mk

/-- One step of path-segment normalization: `.` and empty segments are
dropped, `..` pops the last segment, any other segment is pushed. -/
def normStep (acc : List String) (seg : String) : List String :=
  if seg == "." || seg == "" then acc
  else if seg == ".." then acc.dropLast
  else acc ++ [seg]

/-- The directory of a file path: all segments but the last. -/
def dirOf (p : String) : List String := (splitSegs p).dropLast

/-- Modelled from the spec: join a relative specifier against the importing
file's directory, normalizing `.` and `..` segments (section 4.3). -/
def joinPath (dir : List String) (spec : String) : String :=
  String.intercalate "/" ((dir ++ splitSegs spec).foldl normStep [])

/-- Modelled from the spec: the candidate paths tried in priority order —
exact path, path + each supported source extension, path + directory-index
filename + each extension (section 4.3). -/
def candidatesOf (base : String) : List String :=
  [base] ++ supportedExtensions.map (fun e => base ++ e)
    ++ supportedExtensions.map (fun e => base ++ "/" ++ indexFileName ++ e)

/-- Modelled from the spec: `ImportResolver.resolve` — null for
non-relative specifiers, otherwise the first candidate present in
`knownFilePaths`, and null when no candidate matches (section 4.3). -/
def resolve (specifier importingFilePath : String) (known : List String) :
    Option String :=
  if isRelative specifier then
    (candidatesOf (joinPath (dirOf importingFilePath) specifier)).find?
      (fun c => known.contains c)
  else none

/-! ## GraphStore (spec section 4.4) -/

/-- Modelled from the spec: resolve one call-site callee name against the
known DefinitionRecords — same-file matches are preferred, then a
project-wide unique-name match; ambiguous matches are dropped
(section 4.4 step 4, section 9). -/
def resolveCallee (allDefs : List DefRecord) (callerPath calleeName : String) :
    Option DefKey :=
  match allDefs.filter
      (fun d => d.key.path == callerPath && d.key.name == calleeName) with
  | [d] => some d.key
  | _ :: _ :: _ => none
  | [] =>
    match allDefs.filter (fun d => d.key.name == calleeName) with
    | [d] => some d.key
    | _ => none

/-- Modelled from the spec: attribute a call site to the definition of the
syncing file that carries the caller's definition name; an ambiguous or
missing caller name drops the call site (section 4.2: call sites are
recorded as caller-definition-name plus callee-name text). -/
def resolveCaller (ds : List DefRecord) (callerName : String) : Option DefKey :=
  match ds.filter (fun d => d.key.name == callerName) with
  | [d] => some d.key
  | _ => none

/-- Modelled from the spec: `GraphStore.syncFile` — upsert the FileRecord
with the new fingerprint; retract all DEFINES edges and DefinitionRecords
previously owned by this file then insert the new ones; retract all
outgoing IMPORTS edges and insert the new set (set semantics); retract all
outgoing CALLS edges from this file's definitions and insert the newly
resolved set (section 4.4). -/
def syncFile (st : GraphState) (path fp : String) (ds : List DefRecord)
    (importTargets : List String)
    (callSites : List (String × String)) : GraphState :=
  let defs := st.defs.filter (fun d => d.key.path != path) ++ ds
  let newCalls := callSites.filterMap (fun cs =>
    match resolveCaller ds cs.1, resolveCallee defs path cs.2 with
    | some c, some t => some (c, t)
    | _, _ => none)
  { files := upsertFile st.files path fp
    defs := defs
    defines := st.defines.filter (fun e => e.1 != path && e.2.path != path)
      ++ ds.map (fun d => (path, d.key))
    imports := st.imports.filter (fun e => e.1 != path)
      ++ importTargets.dedup.map (fun t => (path, t))
    calls := st.calls.filter (fun e => e.1.path != path) ++ newCalls.dedup }

/-- Modelled from the spec: `GraphStore.pruneFile` — delete the FileRecord,
cascade deletion of all DefinitionRecords it owned, and remove every edge
touching the file or its definitions (section 4.4). -/
def pruneFile (st : GraphState) (path : String) : GraphState :=
  { files := st.files.filter (fun f => f.1 != path)
    defs := st.defs.filter (fun d => d.key.path != path)
    defines := st.defines.filter (fun e => e.1 != path && e.2.path != path)
    imports := st.imports.filter (fun e => e.1 != path && e.2 != path)
    calls := st.calls.filter (fun e => e.1.path != path && e.2.path != path) }

/-! ## ContentInventory and the scan orchestrator (spec sections 4.1, 2) -/

/-- Modelled from the spec: the on-disk tracked state of a project root —
a mapping of project-relative paths to file contents. -/
def DiskState := List (String × String)

/-- Modelled from the spec: `ContentInventory.enumerate` — the mapping of
tracked paths to content fingerprints, for a content-hash function `hash`
(section 4.1); deterministic given the same on-disk state. -/
def enumerate (hash : String → String) (disk : DiskState) :
    List (String × String) :=
  disk.map (fun f => (f.1, hash f.2))

/-- Modelled from the spec: the output of `DefinitionParser.parse` for one
file — definitions, raw import specifiers, and call sites as
(callerDefinitionName, calleeNameText) pairs (section 4.2). -/
structure ParseResult where
  defs : List DefRecord
  importSpecifiers : List String
  callSites : List (String × String)

/-- Sync one changed file: parse it, resolve its import specifiers against
the known file paths of the current inventory, and apply
`GraphStore.syncFile` (spec section 2, control flow). -/
def syncOne (parse : String → ParseResult) (known : List String)
    (st : GraphState) (pf : String × String) : GraphState :=
  let pr := parse pf.1
  syncFile st pf.1 pf.2 pr.defs
    (pr.importSpecifiers.filterMap (fun s => resolve s pf.1 known)) pr.callSites

/-- Modelled from the spec: the scan orchestrator — classify each path of
the new inventory against the stored fingerprints (new / modified /
unchanged / deleted), prune files absent from the inventory, and sync each
new or modified file; unchanged files are skipped entirely
(sections 4.1 and 2). -/
def scan (parse : String → ParseResult) (st : GraphState)
    (inv : List (String × String)) : GraphState :=
  let deleted := st.files.filter (fun f => !(pathsOf inv).contains f.1)
  let changed := inv.filter (fun pf => lookupFp st.files pf.1 != some pf.2)
  let st1 := deleted.foldl (fun s f => pruneFile s f.1) st
  changed.foldl (syncOne parse (pathsOf inv)) st1

/-! ## EmbeddingIndex (spec section 4.5) -/

/-- Modelled from the spec: an EmbeddingRecord — identity is the rendered
composite key of its DefinitionRecord, attributes are the stored vector and
the text payload (section 3). Vectors are stored pre-normalized, in
fixed-point integer components, so that the inner product of stored
vectors is the spec's "equivalent normalized inner-product" score. -/
structure EmbRecord where
  defId : String
  vec : List Int
  payload : String
deriving DecidableEq

/-- Modelled from the spec: a project's persistent vector index — the
established dimensionality (none while the index is empty and fresh) and
the stored EmbeddingRecords (section 4.5). -/
structure EmbIndex where
  dim : Option Nat
  records : List EmbRecord
deriving DecidableEq

/-- Modelled from the spec: `EmbeddingIndex.upsert` — replace or insert the
record keyed by `id`; when the incoming vector's dimensionality differs
from the index's established dimensionality, the entire index for the
project is recreated empty before the upsert proceeds (section 4.5). -/
def upsertEmb (idx : EmbIndex) (id : String) (vec : List Int)
    (payload : String) : EmbIndex :=
  let r : EmbRecord := ⟨id, vec, payload⟩
  match idx.dim with
  | none => ⟨some vec.length, idx.records.filter (fun x => x.defId != id) ++ [r]⟩
  | some d =>
    if vec.length == d then
      ⟨some d, idx.records.filter (fun x => x.defId != id) ++ [r]⟩
    else
      ⟨some vec.length, [r]⟩

/-- Inner product of two stored vectors. -/
def dot (a b : List Int) : Int := (List.zipWith (· * ·) a b).sum

/-- Lexicographic comparison of character lists by code point, the
executable order underlying the definitionId tie-break. -/
def lexLe : List Char → List Char → Bool
  | [], _ => true
  | _ :: _, [] => false
  | x :: xs, y :: ys => if x == y then lexLe xs ys else decide (x.toNat < y.toNat)

/-- Order on definition ids used for deterministic tie-breaking. -/
def idLe (a b : String) : Bool := lexLe a.toList b.toList

/-- Strict version of `idLe`. -/
def idLt (a b : String) : Bool := a != b && idLe a b

/-- Modelled from the spec: the ranking relation of
`EmbeddingIndex.search` — normalized inner-product score descending, ties
broken by definitionId (section 4.5). -/
def rankRel (q : List Int) (a b : EmbRecord) : Prop :=
  dot q b.vec < dot q a.vec ∨
    (dot q a.vec = dot q b.vec ∧ idLe a.defId b.defId = true)

instance (q : List Int) : DecidableRel (rankRel q) := fun _ _ =>
  inferInstanceAs (Decidable (_ ∨ _ ∧ _ = true))

/-- Modelled from the spec: `EmbeddingIndex.search` — the stored records
ranked by score descending with the definitionId tie-break, truncated to
`topK`, each returned as (definitionId, score, payload) (section 4.5). -/
def search (idx : EmbIndex) (q : List Int) (topK : Nat) :
    List (String × Int × String) :=
  ((List.insertionSort (rankRel q) idx.records).take topK).map
    (fun r => (r.defId, dot q r.vec, r.payload))

/-! ## ContextExpander (spec section 4.6) -/

/-- Modelled from the spec: single-hop neighborhood of a definition in the
call graph, in both directions (callers and callees), as used by the
recursive blast-radius traversal (section 4.6). -/
def neighborsOf (g : GraphState) (k : DefKey) : List DefKey :=
  g.calls.filterMap (fun e => if e.1 == k then some e.2 else none)
    ++ g.calls.filterMap (fun e => if e.2 == k then some e.1 else none)

/-- Modelled from the spec: the bounded traversal loop of
`ContextExpander.expand` — one hop per fuel unit, visited-id tracking, the
next frontier keeps only ids never seen before (section 4.6). -/
def expandLoop (g : GraphState) :
    Nat → List DefKey → List DefKey → List DefKey
  | 0, visited, frontier => visited ++ frontier
  | h + 1, visited, frontier =>
    let visited2 := visited ++ frontier
    let next := (((frontier.map (neighborsOf g)).flatten).filter
        (fun k => !visited2.contains k)).dedup
    expandLoop g h visited2 next

/-- Modelled from the spec: the recursive blast-radius traversal of
`ContextExpander.expand`, bounded by an explicit max-hop count and
tracking visited node ids to guard against cycles (section 4.6). -/
def expand (g : GraphState) (maxHops : Nat) (seeds : List DefKey) :
    List DefKey :=
  expandLoop g maxHops [] seeds.dedup

/-! ## Presentation layer surface (spec section 6)

The backend SDK operations invoked by the presentation components, read
off the source: `components/project-detail-view.tsx` (scan tab, project
list), `components/query-tab.tsx`, `components/analyze-tab.tsx`,
`components/plan-tab.tsx` / `unnamed/part_004`, `components/graph-tab.tsx`,
and the node-details pages `unnamed/part_000` / `unnamed/part_001`. -/

/-- The distinct backend SDK operations called from the presentation layer
(every `...Post` / `...Get` SDK function invoked in the components listed
above). -/
def presentationInvokedOperations : List String :=
  ["apiScanScanPost", "apiQueryQueryPost", "apiAnalyzeAnalyzePost",
   "apiPlanPlanPost", "apiListProjectsProjectsGet",
   "getNodeDetailsNodeDetailsPost", "getGraphGraphPost",
   "deepTraceAnalyzeDeepTraceAnalyzePost",
   "deepTraceApplyDeepTraceApplyPost",
   "deepLinkSearchDeepLinkSearchPost", "deepLinkCreateDeepLinkCreatePost",
   "deepLinkListDeepLinkListPost", "deepLinkDeleteDeepLinkDeletePost"]

/-- Which of the spec's four core operations an SDK operation invokes
(section 6: scan, query, analyze/plan, getNodeDetails); `none` for SDK
operations outside the four-element set. -/
def coreOperationOf : String → Option String
  | "apiScanScanPost" => some "scan"
  | "apiQueryQueryPost" => some "query"
  | "apiAnalyzeAnalyzePost" => some "analyze/plan"
  | "apiPlanPlanPost" => some "analyze/plan"
  | "getNodeDetailsNodeDetailsPost" => some "getNodeDetails"
  | _ => none

/-- The spec's four-element set of core operations (section 6). -/
def fourCoreOperations : List String :=
  ["scan", "query", "analyze/plan", "getNodeDetails"]

/-! ## UserService (example fixture, `unnamed/part_011` with
`utils/validation` and `utils/idGenerator`) -/

/-- A character allowed by the email regex character class `[^\s@]`:
neither whitespace nor `@`. -/
def isEmailChar (c : Char) : Bool := !c.isWhitespace && c != '@'

/-- Split a character list at the first occurrence of `c`, if any. -/
def breakAt (c : Char) : List Char → Option (List Char × List Char)
  | [] => none
  | x :: xs =>
    if x == c then some ([], xs)
    else (breakAt c xs).map (fun p => (x :: p.1, p.2))

/-- `validateEmail` from `utils/validation`: the regex
`^[^\s@]+@[^\s@]+\.[^\s@]+$` — a nonempty `@`-free whitespace-free local
part, one `@`, and a domain part of `[^\s@]` characters containing a `.`
at an interior position. -/
def validateEmail (email : String) : Bool :=
  match breakAt '@' email.toList with
  | none => false
  | some (l, r) =>
    !l.isEmpty && l.all isEmailChar && !r.isEmpty && r.all isEmailChar
      && ((r.drop 1).dropLast.contains '.')

/-- `UserRole` from `types/user`: roles assignable to a user; `user` is the
default applied by `createUser`. -/
inductive UserRole
  | admin
  | user
  | guest
deriving DecidableEq

/-- `User` from `types/user`; `Date` values are modelled as natural-number
timestamps. -/
structure User where
  id : String
  email : String
  name : String
  role : UserRole
  createdAt : Nat
  updatedAt : Nat
deriving DecidableEq

/-- `CreateUserInput` from `types/user`: email, name and optional role. -/
structure CreateUserInput where
  email : String
  name : String
  role : Option UserRole
deriving DecidableEq

/-- JavaScript `Map.set` semantics on the insertion-ordered store: replace
in place when the key is present, append otherwise. -/
def mapSet : List (String × User) → String → User → List (String × User)
  | [], k, u => [(k, u)]
  | e :: es, k, u => if e.1 == k then (k, u) :: es else e :: mapSet es k u

/-- `UserService.createUser` from `unnamed/part_011`: reject an invalid
email, reject a duplicate email, otherwise build the user (defaulting the
role), store it under its freshly generated id and return it. `generateId`
and `new Date()` are impure collaborators, passed in as `newId` and `now`;
the result pairs the outcome with the post-call store. -/
def createUser (users : List (String × User)) (input : CreateUserInput)
    (newId : String) (now : Nat) :
    Except String User × List (String × User) :=
  if !validateEmail input.email then
    (Except.error "Invalid email address", users)
  else if (users.map (·.2)).any (fun u => u.email == input.email) then
    (Except.error "User with this email already exists", users)
  else
    let u : User :=
      ⟨newId, input.email, input.name, input.role.getD UserRole.user, now, now⟩
    (Except.ok u, mapSet users newId u)

/-! ## Theorems -/

/-- C4: `ImportResolver.resolve` returns null whenever the specifier does
not start with a relative-path marker; otherwise it joins the specifier
against the importing file's directory and returns the first candidate
present in `knownFilePaths` in the priority order exact path, then path
plus each supported source extension, then path plus directory-index
filename plus each extension, and returns null (not an error) if no
candidate matches. -/
theorem resolver_resolve_spec (specifier f : String) (known : List String) :
    (isRelative specifier = false → resolve specifier f known = none) ∧
    (∀ t, resolve specifier f known = some t →
      t ∈ known ∧
      ∃ pre post,
        candidatesOf (joinPath (dirOf f) specifier) = pre ++ t :: post ∧
          ∀ c ∈ pre, c ∉ known) ∧
    (isRelative specifier = true → resolve specifier f known = none →
      ∀ c ∈ candidatesOf (joinPath (dirOf f) specifier), c ∉ known) := by
  refine ⟨fun h => by simp [resolve, h], ?_, ?_⟩
  · intro t ht
    rw [resolve] at ht
    by_cases hrel : isRelative specifier
    · simp only [hrel, if_true] at ht
      rcases List.find?_eq_some.mp ht with ⟨hp, pre, post, heq, hpre⟩
      refine ⟨List.elem_iff.mp hp, pre, post, heq, fun c hc => ?_⟩
      have hb := hpre c hc
      simp only [Bool.not_eq_true'] at hb
      simp at hb
      exact hb
    · simp [hrel] at ht
  · intro hrel hnone c hc
    rw [resolve] at hnone
    simp only [hrel, if_true] at hnone
    have hb := List.find?_eq_none.mp hnone c hc
    intro hmem
    exact hb (List.elem_iff.mpr hmem)

/-- Witness for C4: on a concrete project, a relative specifier `./b`
imported from `src/a.ts` resolves to `src/b.ts` (the first matching
candidate, via the `.ts` extension). -/
theorem resolver_resolve_spec_witness :
    "src/b.ts" ∈ ["src/b.ts", "src/c.ts"] ∧
    ∃ pre post,
      candidatesOf (joinPath (dirOf "src/a.ts") "./b") = pre ++ "src/b.ts" :: post ∧
        ∀ c ∈ pre, c ∉ ["src/b.ts", "src/c.ts"] :=
  (resolver_resolve_spec "./b" "src/a.ts" ["src/b.ts", "src/c.ts"]).2.1
    "src/b.ts" (by decide)

/-- `Map.set` with a key not present in the store appends the entry. -/
theorem mapSet_of_fresh {users : List (String × User)} {k : String} (u : User)
    (h : k ∉ users.map (·.1)) : mapSet users k u = users ++ [(k, u)] := by
  induction users with
  | nil => rfl
  | cons e es ih =>
    simp only [List.map_cons, List.mem_cons] at h
    push_neg at h
    rw [mapSet]
    have hb : (e.1 == k) = false := by simp [Ne.symm h.1]
    rw [hb]
    simp only [Bool.false_eq_true, if_false, List.cons_append]
    rw [ih h.2]

/-- C10: `UserService.createUser` throws when the input's email fails
`validateEmail` or equals the email of a user already in the store, and in
either error case the users map is unchanged; when it succeeds, exactly
one new user with a fresh id and the input's email is added and
returned. -/
theorem userService_createUser_spec (users : List (String × User))
    (input : CreateUserInput) (newId : String) (now : Nat) :
    (validateEmail input.email = false →
      createUser users input newId now =
        (Except.error "Invalid email address", users)) ∧
    (validateEmail input.email = true →
      (∃ u ∈ users.map (·.2), u.email = input.email) →
      createUser users input newId now =
        (Except.error "User with this email already exists", users)) ∧
    (validateEmail input.email = true →
      (∀ u ∈ users.map (·.2), u.email ≠ input.email) →
      newId ∉ users.map (·.1) →
      ∃ u, createUser users input newId now =
          (Except.ok u, users ++ [(newId, u)]) ∧
        u.id = newId ∧ u.email = input.email ∧ u.name = input.name ∧
        (users ++ [(newId, u)]).length = users.length + 1) := by
  refine ⟨fun h => by simp [createUser, h], ?_, ?_⟩
  · intro hv ⟨u, hu, hue⟩
    have hany : (users.map (·.2)).any (fun u => u.email == input.email) = true :=
      List.any_eq_true.mpr ⟨u, hu, by simp [hue]⟩
    simp [createUser, hv, hany]
  · intro hv hno hfresh
    have hany : (users.map (·.2)).any (fun u => u.email == input.email) = false := by
      rw [List.any_eq_false]
      intro u hu
      simp [hno u hu]
    refine ⟨⟨newId, input.email, input.name, input.role.getD UserRole.user,
      now, now⟩, ?_, rfl, rfl, rfl, by simp⟩
    simp [createUser, hv, hany, mapSet_of_fresh _ hfresh]

/-- Witness for C10: creating a user with a valid email in an empty store
succeeds and appends exactly one user. -/
theorem userService_createUser_spec_witness :
    ∃ u, createUser [] ⟨"alice@mail.com", "Alice", none⟩ "id1" 7 =
        (Except.ok u, [] ++ [("id1", u)]) ∧
      u.id = "id1" ∧ u.email = "alice@mail.com" ∧ u.name = "Alice" ∧
      ([] ++ [("id1", u)] : List (String × User)).length =
        ([] : List (String × User)).length + 1 :=
  (userService_createUser_spec [] ⟨"alice@mail.com", "Alice", none⟩ "id1" 7).2.2
    (by decide) (by decide) (by decide)

/-- The uniform-dimensionality invariant of a project's vector index: every
stored record's vector length agrees with the established
dimensionality. -/
def UniformDim (idx : EmbIndex) : Prop :=
  ∀ r ∈ idx.records, idx.dim = some r.vec.length

/-- C7: when an incoming vector's dimensionality differs from the index's
established dimensionality, `EmbeddingIndex.upsert` recreates the entire
index for the project empty before the upsert proceeds, so the embedding
dimensionality stored in a project's index is uniform at all times. -/
theorem embeddingIndex_uniform_dim (idx : EmbIndex) (id : String)
    (vec : List Int) (payload : String) :
    (∀ d, idx.dim = some d → vec.length ≠ d →
      upsertEmb idx id vec payload = ⟨some vec.length, [⟨id, vec, payload⟩]⟩) ∧
    (UniformDim idx → UniformDim (upsertEmb idx id vec payload)) := by
  constructor
  · intro d hd hne
    rw [upsertEmb, hd]
    simp [hne]
  · intro hu r hr
    cases hdim : idx.dim with
    | none =>
      simp only [upsertEmb, hdim, List.mem_append, List.mem_filter,
        List.mem_singleton] at hr ⊢
      rcases hr with ⟨hr, _⟩ | hr
      · exact absurd (hu r hr) (by rw [hdim]; simp)
      · subst hr; rfl
    | some d =>
      by_cases hlen : vec.length = d
      · simp only [upsertEmb, hdim, hlen, beq_self_eq_true, if_true,
          List.mem_append, List.mem_filter, List.mem_singleton] at hr ⊢
        rcases hr with ⟨hr, _⟩ | hr
        · have h2 := (hu r hr).symm.trans hdim
          simp only [Option.some.injEq] at h2
          simp [h2]
        · subst hr; simp [hlen]
      · have hb : (vec.length == d) = false := by simp [hlen]
        simp only [upsertEmb, hdim, hb, Bool.false_eq_true, if_false,
          List.mem_singleton] at hr ⊢
        subst hr; simp

/-- Witness for C7: upserting a 3-dimensional vector into an index whose
established dimensionality is 2 recreates the index empty and stores only
the new record. -/
theorem embeddingIndex_uniform_dim_witness :
    upsertEmb ⟨some 2, [⟨"a.ts::f#0", [1, 0], "pa"⟩]⟩ "b.ts::g#0" [1, 2, 3] "pb" =
      ⟨some 3, [⟨"b.ts::g#0", [1, 2, 3], "pb"⟩]⟩ :=
  (embeddingIndex_uniform_dim ⟨some 2, [⟨"a.ts::f#0", [1, 0], "pa"⟩]⟩
    "b.ts::g#0" [1, 2, 3] "pb").1 2 rfl (by decide)

/-- The traversal loop never revisits a node: starting from a
duplicate-free visit list, it stays duplicate-free. -/
theorem expandLoop_nodup (g : GraphState) :
    ∀ (fuel : Nat) (visited frontier : List DefKey),
      (visited ++ frontier).Nodup → (expandLoop g fuel visited frontier).Nodup := by
  intro fuel
  induction fuel with
  | zero => exact fun v f hn => hn
  | succ h ih =>
    intro v f hn
    rw [expandLoop]
    apply ih
    rw [List.nodup_append]
    refine ⟨hn, List.nodup_dedup _, fun a ha hb => ?_⟩
    have hfil := (List.mem_filter.mp (List.mem_dedup.mp hb)).2
    simp at hfil
    rcases List.mem_append.mp ha with h | h
    · exact hfil.1 h
    · exact hfil.2 h

/-- C6: for every graph — including graphs whose call edges contain
cycles — and every seed set, `ContextExpander.expand` with recursive
traversal bounded by maxHops=5 terminates (it is a total, fuel-bounded
function), and its traversal visits each node at most once: the visit list
it produces has no duplicates. -/
theorem contextExpander_expand_bounded (g : GraphState) (seeds : List DefKey) :
    (∃ result, expand g 5 seeds = result) ∧ (expand g 5 seeds).Nodup := by
  refine ⟨⟨_, rfl⟩, ?_⟩
  apply expandLoop_nodup
  simpa using List.nodup_dedup seeds

/-! ## Scenario D fixture (spec section 8): two files each defining
`handler`, a third file calling `handler`. -/

/-- Parse results of the Scenario D project: `x.ts` and `y.ts` each define
a function named `handler`; `z.ts` defines `main`, whose body contains a
call site naming `handler`. -/
def scenarioDParse : String → ParseResult := fun p =>
  if p == "x.ts" then
    ⟨[⟨⟨"x.ts", "handler", 0⟩, DefKind.functionKind, "handler()",
      "function handler() ...", 1, 3⟩], [], []⟩
  else if p == "y.ts" then
    ⟨[⟨⟨"y.ts", "handler", 0⟩, DefKind.functionKind, "handler()",
      "function handler() ...", 1, 3⟩], [], []⟩
  else if p == "z.ts" then
    ⟨[⟨⟨"z.ts", "main", 0⟩, DefKind.functionKind, "main()",
      "function main() ... handler() ...", 1, 5⟩], [], [("main", "handler")]⟩
  else ⟨[], [], []⟩

/-- Inventory of the Scenario D project. -/
def scenarioDInv : List (String × String) :=
  [("x.ts", "fx"), ("y.ts", "fy"), ("z.ts", "fz")]

/-- The graph after scanning the Scenario D project from scratch. -/
def scenarioDState : GraphState := scan scenarioDParse emptyGraph scenarioDInv

/-- C8: after a scan of two files each defining a function named `handler`,
their composite keys differ (path-qualified), both definitions are present,
and the call site naming `handler` in the third file — matching no
same-file definition and more than one project-wide definition — produces
no CALLS edge (ambiguous matches are dropped). -/
theorem scenarioD_ambiguous_call_dropped :
    (⟨"x.ts", "handler", 0⟩ : DefKey) ≠ ⟨"y.ts", "handler", 0⟩ ∧
    (⟨"x.ts", "handler", 0⟩ : DefKey) ∈ scenarioDState.defs.map (·.key) ∧
    (⟨"y.ts", "handler", 0⟩ : DefKey) ∈ scenarioDState.defs.map (·.key) ∧
    scenarioDState.calls = [] := by decide

/-- C9 counterexample: the presentation code invokes backend operations
outside the four core operations — concretely, the deep-trace apply
endpoint is called from the graph tab and the node-details pages — so the
set of backend operations called from presentation code does not equal the
four-element core set. -/
theorem presentation_four_ops_counterexample :
    ¬ (∀ op ∈ presentationInvokedOperations, (coreOperationOf op).isSome = true) ∧
    "deepTraceApplyDeepTraceApplyPost" ∈ presentationInvokedOperations ∧
    coreOperationOf "deepTraceApplyDeepTraceApplyPost" = none := by decide

/-- C9 (amended): the presentation layer does invoke all four core
operations — scan, query, analyze/plan (via the analyze and plan
endpoints), getNodeDetails — and the set of core operations it invokes
equals exactly the four-element set; but it additionally invokes eight
non-core backend operations (project listing, whole-graph retrieval,
deep-trace analyze/apply, deep-link search/create/list/delete), so the
full set of backend operations called from presentation code strictly
contains the four-element set. -/
theorem presentation_four_core_ops_amended :
    (presentationInvokedOperations.filterMap coreOperationOf).dedup =
      fourCoreOperations ∧
    presentationInvokedOperations.filter (fun op => (coreOperationOf op).isNone) =
      ["apiListProjectsProjectsGet", "getGraphGraphPost",
       "deepTraceAnalyzeDeepTraceAnalyzePost",
       "deepTraceApplyDeepTraceApplyPost",
       "deepLinkSearchDeepLinkSearchPost", "deepLinkCreateDeepLinkCreatePost",
       "deepLinkListDeepLinkListPost", "deepLinkDeleteDeepLinkDeletePost"] := by
  decide

/-- Character-list comparison of two equal heads reduces to the tails. -/
theorem lexLe_cons_self (x : Char) (xs ys : List Char) :
    lexLe (x :: xs) (x :: ys) = lexLe xs ys := by
  simp [lexLe]

/-- Character-list comparison of two distinct heads is decided by the
heads' code points. -/
theorem lexLe_cons_ne {x y : Char} (h : x ≠ y) (xs ys : List Char) :
    lexLe (x :: xs) (y :: ys) = decide (x.toNat < y.toNat) := by
  simp [lexLe, h]

/-- Distinct characters have distinct code points. -/
theorem char_toNat_ne {x y : Char} (h : x ≠ y) : x.toNat ≠ y.toNat := by
  intro he
  apply h
  apply Char.ext
  apply UInt32.toNat.inj
  unfold Char.toNat at he
  exact he

/-- The tie-breaking order on ids is total. -/
theorem lexLe_total : ∀ a b : List Char, lexLe a b = true ∨ lexLe b a = true := by
  intro a
  induction a with
  | nil => exact fun b => Or.inl rfl
  | cons x xs ih =>
    intro b
    cases b with
    | nil => right; rfl
    | cons y ys =>
      by_cases hxy : x = y
      · subst hxy
        rcases ih ys with h | h
        · left; rw [lexLe_cons_self]; exact h
        · right; rw [lexLe_cons_self]; exact h
      · rcases Nat.lt_or_ge x.toNat y.toNat with h | h
        · left; rw [lexLe_cons_ne hxy]; simpa using h
        · right; rw [lexLe_cons_ne (Ne.symm hxy)]
          have := lt_of_le_of_ne h (fun e => char_toNat_ne hxy e.symm)
          simpa using this

/-- The tie-breaking order on ids is transitive. -/
theorem lexLe_trans : ∀ a b c : List Char,
    lexLe a b = true → lexLe b c = true → lexLe a c = true := by
  intro a
  induction a with
  | nil => exact fun _ _ _ _ => rfl
  | cons x xs ih =>
    intro b c hab hbc
    cases b with
    | nil => simp [lexLe] at hab
    | cons y ys =>
      cases c with
      | nil => simp [lexLe] at hbc
      | cons z zs =>
        by_cases hxy : x = y
        · subst hxy
          rw [lexLe_cons_self] at hab
          by_cases hyz : x = z
          · subst hyz
            rw [lexLe_cons_self] at hbc ⊢
            exact ih ys zs hab hbc
          · rw [lexLe_cons_ne hyz] at hbc ⊢
            exact hbc
        · rw [lexLe_cons_ne hxy] at hab
          have hab' : x.toNat < y.toNat := by simpa using hab
          by_cases hyz : y = z
          · subst hyz
            rw [lexLe_cons_ne hxy]
            simpa using hab'
          · rw [lexLe_cons_ne hyz] at hbc
            have hbc' : y.toNat < z.toNat := by simpa using hbc
            have hxz' : x.toNat < z.toNat := lt_trans hab' hbc'
            have hxz : x ≠ z := fun e => absurd (e ▸ hxz') (lt_irrefl _)
            rw [lexLe_cons_ne hxz]
            simpa using hxz'

instance (q : List Int) : IsTotal EmbRecord (rankRel q) where
  total a b := by
    rcases lt_trichotomy (dot q a.vec) (dot q b.vec) with h | h | h
    · right; left; exact h
    · rcases lexLe_total a.defId.toList b.defId.toList with hl | hl
      · left; right; exact ⟨h, hl⟩
      · right; right; exact ⟨h.symm, hl⟩
    · left; left; exact h

instance (q : List Int) : IsTrans EmbRecord (rankRel q) where
  trans a b c hab hbc := by
    rcases hab with hab | ⟨hab1, hab2⟩
    · rcases hbc with hbc | ⟨hbc1, hbc2⟩
      · left; exact lt_trans hbc hab
      · left; rw [← hbc1]; exact hab
    · rcases hbc with hbc | ⟨hbc1, hbc2⟩
      · left; rw [hab1]; exact hbc
      · right
        exact ⟨hab1.trans hbc1, lexLe_trans _ _ _ hab2 hbc2⟩

/-- C5: `EmbeddingIndex.search` returns the results ordered by normalized
inner-product score descending with ties broken by definitionId, and any
two search calls with the same query vector and topK on the same index
return identical ordered result lists. -/
theorem embeddingIndex_search_ranked (idx : EmbIndex) (q : List Int)
    (topK : Nat) (hids : (idx.records.map (·.defId)).Nodup) :
    List.Pairwise
      (fun x y : String × Int × String =>
        y.2.1 < x.2.1 ∨ (x.2.1 = y.2.1 ∧ idLt x.1 y.1 = true))
      (search idx q topK) ∧
    (∀ r1 r2, r1 = search idx q topK → r2 = search idx q topK → r1 = r2) := by
  constructor
  · have hsorted : List.Pairwise (rankRel q)
        ((List.insertionSort (rankRel q) idx.records).take topK) :=
      List.Pairwise.sublist (List.take_sublist _ _)
        (List.sorted_insertionSort (rankRel q) idx.records)
    have hnd : (((List.insertionSort (rankRel q) idx.records).take topK).map
        (·.defId)).Nodup := by
      refine List.Nodup.sublist
        (List.Sublist.map _ (List.take_sublist _ _)) ?_
      exact (List.Perm.nodup_iff
        (List.Perm.map _ (List.perm_insertionSort (rankRel q) idx.records))).mpr
        hids
    have hne : List.Pairwise (fun a b : EmbRecord => a.defId ≠ b.defId)
        ((List.insertionSort (rankRel q) idx.records).take topK) :=
      List.pairwise_map.mp hnd
    rw [search]
    rw [List.pairwise_map]
    refine (hsorted.and hne).imp ?_
    rintro a b ⟨hr | ⟨heq, hle⟩, hneq⟩
    · exact Or.inl hr
    · refine Or.inr ⟨heq, ?_⟩
      rw [idLt]
      simp only [Bool.and_eq_true, bne_iff_ne, ne_eq]
      exact ⟨hneq, hle⟩
  · intro r1 r2 h1 h2
    rw [h1, h2]

/-- Witness for C5: searching a two-record index whose records score
equally ranks them by definitionId. -/
theorem embeddingIndex_search_ranked_witness :
    List.Pairwise
      (fun x y : String × Int × String =>
        y.2.1 < x.2.1 ∨ (x.2.1 = y.2.1 ∧ idLt x.1 y.1 = true))
      (search ⟨some 2, [⟨"b.ts::g#0", [0, 1], "pb"⟩,
        ⟨"a.ts::f#0", [0, 1], "pa"⟩]⟩ [1, 1] 2) ∧
    (∀ r1 r2,
      r1 = search ⟨some 2, [⟨"b.ts::g#0", [0, 1], "pb"⟩,
        ⟨"a.ts::f#0", [0, 1], "pa"⟩]⟩ [1, 1] 2 →
      r2 = search ⟨some 2, [⟨"b.ts::g#0", [0, 1], "pb"⟩,
        ⟨"a.ts::f#0", [0, 1], "pa"⟩]⟩ [1, 1] 2 → r1 = r2) :=
  embeddingIndex_search_ranked
    ⟨some 2, [⟨"b.ts::g#0", [0, 1], "pb"⟩, ⟨"a.ts::f#0", [0, 1], "pa"⟩]⟩
    [1, 1] 2 (by decide)

/-! ### Association-list lemmas for FileRecords -/

/-- Fingerprint lookup steps through a cons cell. -/
theorem lookupFp_cons (f : String × String) (fs : List (String × String))
    (p : String) :
    lookupFp (f :: fs) p = if f.1 == p then some f.2 else lookupFp fs p := by
  cases h : (f.1 == p) with
  | true => simp [lookupFp, List.find?_cons, h]
  | false => simp [lookupFp, List.find?_cons, h]

/-- Upserting a fingerprint makes it the one looked up at its path. -/
theorem lookupFp_upsertFile_self (files : List (String × String))
    (p fp : String) : lookupFp (upsertFile files p fp) p = some fp := by
  induction files with
  | nil => simp [upsertFile, lookupFp_cons]
  | cons f fs ih =>
    rw [upsertFile]
    by_cases h : (f.1 == p) = true
    · rw [if_pos h, lookupFp_cons]
      simp
    · rw [if_neg h, lookupFp_cons, if_neg h, ih]

/-- Upserting a fingerprint leaves lookups at other paths unchanged. -/
theorem lookupFp_upsertFile_ne (files : List (String × String))
    {p q : String} (fp : String) (h : q ≠ p) :
    lookupFp (upsertFile files p fp) q = lookupFp files q := by
  induction files with
  | nil =>
    rw [upsertFile, lookupFp_cons, if_neg (by simp [Ne.symm h])]
  | cons f fs ih =>
    rw [upsertFile]
    by_cases hf : (f.1 == p) = true
    · rw [if_pos hf, lookupFp_cons, lookupFp_cons]
      have hfp : f.1 = p := by simpa using hf
      have hfq : (f.1 == q) = false := by simp [hfp, Ne.symm h]
      rw [if_neg (by simp [Ne.symm h]), if_neg (by simp [hfq])]
    · rw [if_neg hf, lookupFp_cons, lookupFp_cons, ih]

/-- Membership after an upsert: the new record or an old one. -/
theorem mem_upsertFile {files : List (String × String)} {p fp : String}
    {f : String × String} (h : f ∈ upsertFile files p fp) :
    f = (p, fp) ∨ f ∈ files := by
  induction files with
  | nil => simpa [upsertFile] using h
  | cons g gs ih =>
    rw [upsertFile] at h
    by_cases hg : (g.1 == p) = true
    · rw [if_pos hg] at h
      rcases List.mem_cons.mp h with h | h
      · exact Or.inl h
      · exact Or.inr (List.mem_cons_of_mem _ h)
    · rw [if_neg hg] at h
      rcases List.mem_cons.mp h with h | h
      · exact Or.inr (h ▸ List.mem_cons_self _ _)
      · rcases ih h with h | h
        · exact Or.inl h
        · exact Or.inr (List.mem_cons_of_mem _ h)

/-- The upserted path is present after an upsert. -/
theorem self_mem_paths_upsertFile (files : List (String × String))
    (p fp : String) : p ∈ pathsOf (upsertFile files p fp) := by
  induction files with
  | nil => simp [upsertFile, pathsOf]
  | cons f fs ih =>
    rw [upsertFile]
    by_cases h : (f.1 == p) = true
    · rw [if_pos h]; simp [pathsOf]
    · rw [if_neg h]
      simpa [pathsOf] using Or.inr (by simpa [pathsOf] using ih)

/-- Paths present before an upsert are present after it. -/
theorem mem_paths_upsertFile_of_mem {files : List (String × String)}
    {x : String} (p fp : String) (h : x ∈ pathsOf files) :
    x ∈ pathsOf (upsertFile files p fp) := by
  induction files with
  | nil => simp [pathsOf] at h
  | cons f fs ih =>
    rw [upsertFile]
    by_cases hf : (f.1 == p) = true
    · rw [if_pos hf]
      rcases List.mem_cons.mp h with h | h
      · simp only [beq_iff_eq] at hf
        simp [pathsOf, h, hf]
      · simp only [pathsOf, List.map_cons, List.mem_cons]
        exact Or.inr h
    · rw [if_neg hf]
      rcases List.mem_cons.mp h with h | h
      · simp [pathsOf, h]
      · simp only [pathsOf, List.map_cons, List.mem_cons]
        exact Or.inr (ih h)

/-- A path absent before an upsert at a different path is absent after. -/
theorem not_mem_paths_upsertFile {files : List (String × String)}
    {x p : String} (fp : String) (hx : x ∉ pathsOf files) (hne : x ≠ p) :
    x ∉ pathsOf (upsertFile files p fp) := by
  induction files with
  | nil => simpa [upsertFile, pathsOf] using hne
  | cons f fs ih =>
    simp only [pathsOf, List.map_cons, List.mem_cons] at hx
    push_neg at hx
    rw [upsertFile]
    by_cases hf : (f.1 == p) = true
    · rw [if_pos hf]
      simp only [pathsOf, List.map_cons, List.mem_cons]
      push_neg
      exact ⟨hne, by simpa [pathsOf] using hx.2⟩
    · rw [if_neg hf]
      simp only [pathsOf, List.map_cons, List.mem_cons]
      push_neg
      exact ⟨hx.1, by simpa [pathsOf] using ih (by simpa [pathsOf] using hx.2)⟩

/-- Filtering out one path leaves lookups at other paths unchanged. -/
theorem lookupFp_filter_path_ne {files : List (String × String)}
    {p q : String} (h : q ≠ p) :
    lookupFp (files.filter (fun f => f.1 != p)) q = lookupFp files q := by
  induction files with
  | nil => rfl
  | cons f fs ih =>
    rw [List.filter_cons]
    by_cases hf : (f.1 != p) = true
    · rw [if_pos hf, lookupFp_cons, lookupFp_cons, ih]
    · rw [if_neg hf, lookupFp_cons, ih]
      have hfp : f.1 = p := by simpa using hf
      rw [if_neg (by simp [hfp, Ne.symm h])]

/-- In a key-nodup association list, a key determines its value. -/
theorem key_eq_of_nodup {l : List (String × String)}
    (h : (l.map (·.1)).Nodup) {p a b : String}
    (ha : (p, a) ∈ l) (hb : (p, b) ∈ l) : a = b := by
  induction l with
  | nil => simp at ha
  | cons x xs ih =>
    simp only [List.map_cons, List.nodup_cons] at h
    rcases List.mem_cons.mp ha with ha' | ha' <;>
      rcases List.mem_cons.mp hb with hb' | hb'
    · exact congrArg Prod.snd (ha'.trans hb'.symm)
    · exact absurd (List.mem_map_of_mem (·.1) hb')
        (by rw [← ha'] at h; exact h.1)
    · exact absurd (List.mem_map_of_mem (·.1) ha')
        (by rw [← hb'] at h; exact h.1)
    · exact ih h.2 ha' hb'

/-! ### GraphStore component equations and the no-orphans invariant -/

/-- `syncFile` component equation: definitions. -/
theorem syncFile_defs (st : GraphState) (p fp : String) (ds : List DefRecord)
    (its : List String) (cs : List (String × String)) :
    (syncFile st p fp ds its cs).defs =
      st.defs.filter (fun d => d.key.path != p) ++ ds := rfl

/-- `syncFile` component equation: DEFINES edges. -/
theorem syncFile_defines (st : GraphState) (p fp : String)
    (ds : List DefRecord) (its : List String) (cs : List (String × String)) :
    (syncFile st p fp ds its cs).defines =
      st.defines.filter (fun e => e.1 != p && e.2.path != p)
        ++ ds.map (fun d => (p, d.key)) := rfl

/-- `syncFile` component equation: FileRecords. -/
theorem syncFile_files (st : GraphState) (p fp : String) (ds : List DefRecord)
    (its : List String) (cs : List (String × String)) :
    (syncFile st p fp ds its cs).files = upsertFile st.files p fp := rfl

/-- `syncFile` component equation: IMPORTS edges. -/
theorem syncFile_imports (st : GraphState) (p fp : String)
    (ds : List DefRecord) (its : List String) (cs : List (String × String)) :
    (syncFile st p fp ds its cs).imports =
      st.imports.filter (fun e => e.1 != p)
        ++ its.dedup.map (fun t => (p, t)) := rfl

/-- `syncFile` component equation: CALLS edges. -/
theorem syncFile_calls (st : GraphState) (p fp : String) (ds : List DefRecord)
    (its : List String) (cs : List (String × String)) :
    (syncFile st p fp ds its cs).calls =
      st.calls.filter (fun e => e.1.path != p)
        ++ (cs.filterMap (fun c =>
          match resolveCaller ds c.1,
            resolveCallee (st.defs.filter (fun d => d.key.path != p) ++ ds)
              p c.2 with
          | some a, some b => some (a, b)
          | _, _ => none)).dedup := rfl

/-- Modelled from the spec: the GraphStore mutation commands issued by the
scan orchestrator (section 4.4). -/
inductive GraphCmd where
  | sync (path fp : String) (ds : List DefRecord) (importTargets : List String)
      (callSites : List (String × String))
  | prune (path : String)

/-- Apply one GraphStore command. -/
def applyCmd (st : GraphState) : GraphCmd → GraphState
  | GraphCmd.sync p fp ds its cs => syncFile st p fp ds its cs
  | GraphCmd.prune p => pruneFile st p

/-- Well-formed command inputs, as produced by the DefinitionParser: each
definition handed to a sync is owned by the synced file (its composite key
is path-qualified) and the composite keys of one file's definitions are
pairwise distinct (occurrence-index disambiguation, spec section 4.2). -/
def CmdWF : GraphCmd → Prop
  | GraphCmd.sync p _ ds _ _ =>
      (∀ d ∈ ds, d.key.path = p) ∧ (ds.map (·.key)).Nodup
  | GraphCmd.prune _ => True

/-- The no-orphans / no-duplicates invariant: DefinitionRecord composite
keys are pairwise distinct, and every DefinitionRecord is owned — via
exactly one DEFINES edge — by exactly one FileRecord, which is present in
the graph. -/
def DefsWF (st : GraphState) : Prop :=
  (st.defs.map (·.key)).Nodup ∧
  ∀ d ∈ st.defs,
    st.defines.filter (fun e => e.2 == d.key) = [(d.key.path, d.key)] ∧
    d.key.path ∈ pathsOf st.files

/-- Keys of definitions surviving the retraction filter avoid the synced
path. -/
theorem mem_keys_filter_path_ne {l : List DefRecord} {p : String} {k : DefKey}
    (h : k ∈ (l.filter (fun d => d.key.path != p)).map (·.key)) :
    k.path ≠ p := by
  rcases List.mem_map.mp h with ⟨d, hd, rfl⟩
  simpa using (List.mem_filter.mp hd).2

/-- Among the freshly inserted DEFINES edges, exactly one points at each
fresh definition's key. -/
theorem filter_defines_new {ds : List DefRecord} {p : String} {d : DefRecord}
    (h2 : (ds.map (·.key)).Nodup) (hd : d ∈ ds) :
    (ds.map (fun x => (p, x.key))).filter (fun e => e.2 == d.key) =
      [(p, d.key)] := by
  induction ds with
  | nil => simp at hd
  | cons a as ih =>
    simp only [List.map_cons, List.nodup_cons] at h2
    rw [List.map_cons, List.filter_cons]
    rcases List.mem_cons.mp hd with rfl | hd'
    · rw [if_pos (by simp)]
      have hnil : (as.map (fun x => (p, x.key))).filter
          (fun e => e.2 == d.key) = [] := by
        rw [List.filter_eq_nil_iff]
        intro e he
        rcases List.mem_map.mp he with ⟨x, hx, rfl⟩
        simp only [beq_iff_eq]
        intro hxk
        exact h2.1 (hxk ▸ List.mem_map_of_mem (·.key) hx)
      rw [hnil]
    · by_cases hek : a.key = d.key
      · exact absurd (by rw [hek]; exact List.mem_map_of_mem (·.key) hd') h2.1
      · rw [if_neg (by simp [hek])]
        exact ih h2.2 hd'

/-- Retraction keeps the unique DEFINES edge of a definition owned by a
different file. -/
theorem filter_defines_old {defines : List (String × DefKey)} {p : String}
    {k : DefKey} (hk : k.path ≠ p)
    (hflt : defines.filter (fun e => e.2 == k) = [(k.path, k)]) :
    (defines.filter (fun e => e.1 != p && e.2.path != p)).filter
      (fun e => e.2 == k) = [(k.path, k)] := by
  have hswap : (defines.filter (fun e => e.1 != p && e.2.path != p)).filter
      (fun e => e.2 == k) =
      (defines.filter (fun e => e.2 == k)).filter
        (fun e => e.1 != p && e.2.path != p) := by
    rw [List.filter_filter, List.filter_filter]
    exact List.filter_congr (fun a _ => Bool.and_comm _ _)
  rw [hswap, hflt, List.filter_cons, if_pos (by simp [hk]), List.filter_nil]

/-- A surviving path stays among the FileRecord paths after pruning a
different path. -/
theorem mem_paths_filter {files : List (String × String)} {x p : String}
    (hx : x ∈ pathsOf files) (hne : x ≠ p) :
    x ∈ pathsOf (files.filter (fun f => f.1 != p)) := by
  rcases List.mem_map.mp hx with ⟨f, hf, rfl⟩
  exact List.mem_map_of_mem _ (List.mem_filter.mpr ⟨hf, by simpa using hne⟩)

/-- The empty graph satisfies the no-orphans invariant. -/
theorem DefsWF_empty : DefsWF emptyGraph := by
  refine ⟨by simp [emptyGraph], ?_⟩
  intro d hd
  simp [emptyGraph] at hd

/-- `syncFile` preserves the no-orphans invariant when its inputs are
well-formed. -/
theorem DefsWF_syncFile {st : GraphState} (p fp : String)
    {ds : List DefRecord} (its : List String) (cs : List (String × String))
    (h1 : ∀ d ∈ ds, d.key.path = p) (h2 : (ds.map (·.key)).Nodup)
    (hwf : DefsWF st) : DefsWF (syncFile st p fp ds its cs) := by
  obtain ⟨hnd, hown⟩ := hwf
  constructor
  · rw [syncFile_defs]
    simp only [List.map_append, List.nodup_append]
    refine ⟨((List.filter_sublist _).map _).nodup hnd, h2, ?_⟩
    intro k hk hk2
    have hkp : k.path ≠ p := mem_keys_filter_path_ne hk
    rcases List.mem_map.mp hk2 with ⟨d, hd, rfl⟩
    exact hkp (h1 d hd)
  · intro d hd
    rw [syncFile_defs] at hd
    rw [syncFile_defines, syncFile_files]
    rcases List.mem_append.mp hd with hdA | hdB
    · have hdst : d ∈ st.defs := (List.mem_filter.mp hdA).1
      have hdp : d.key.path ≠ p := by simpa using (List.mem_filter.mp hdA).2
      obtain ⟨hflt, hpath⟩ := hown d hdst
      constructor
      · rw [List.filter_append]
        have hnewnil : (ds.map (fun x => (p, x.key))).filter
            (fun e => e.2 == d.key) = [] := by
          rw [List.filter_eq_nil_iff]
          intro e he
          rcases List.mem_map.mp he with ⟨x, hx, rfl⟩
          simp only [beq_iff_eq]
          intro hxk
          exact hdp (by rw [← hxk, h1 x hx])
        rw [hnewnil, List.append_nil]
        exact filter_defines_old hdp hflt
      · exact mem_paths_upsertFile_of_mem p fp hpath
    · have hdp : d.key.path = p := h1 d hdB
      constructor
      · rw [List.filter_append]
        have holdnil : (st.defines.filter
            (fun e => e.1 != p && e.2.path != p)).filter
            (fun e => e.2 == d.key) = [] := by
          rw [List.filter_filter, List.filter_eq_nil_iff]
          intro e he hpred
          simp only [Bool.and_eq_true, beq_iff_eq, bne_iff_ne] at hpred
          exact hpred.2.2 (by rw [hpred.1, hdp])
        rw [holdnil, List.nil_append, filter_defines_new h2 hdB, hdp]
      · rw [hdp]
        exact self_mem_paths_upsertFile _ p fp

/-- `pruneFile` preserves the no-orphans invariant. -/
theorem DefsWF_pruneFile {st : GraphState} (p : String) (hwf : DefsWF st) :
    DefsWF (pruneFile st p) := by
  obtain ⟨hnd, hown⟩ := hwf
  constructor
  · exact ((List.filter_sublist _).map _).nodup hnd
  · intro d hd
    have hdst : d ∈ st.defs := (List.mem_filter.mp hd).1
    have hdp : d.key.path ≠ p := by simpa using (List.mem_filter.mp hd).2
    obtain ⟨hflt, hpath⟩ := hown d hdst
    exact ⟨filter_defines_old hdp hflt, mem_paths_filter hpath hdp⟩

/-- Any well-formed command sequence applied to any invariant-satisfying
graph preserves the no-orphans invariant. -/
theorem DefsWF_foldl :
    ∀ (cmds : List GraphCmd) (st : GraphState), DefsWF st →
      (∀ c ∈ cmds, CmdWF c) → DefsWF (cmds.foldl applyCmd st) := by
  intro cmds
  induction cmds with
  | nil => exact fun st h _ => h
  | cons c cs ih =>
    intro st hwf hcmd
    rw [List.foldl_cons]
    apply ih
    · cases c with
      | sync p fp ds its cal =>
        obtain ⟨hp, hn⟩ := hcmd _ (List.mem_cons_self _ _)
        exact DefsWF_syncFile p fp its cal hp hn hwf
      | prune p => exact DefsWF_pruneFile p hwf
    · exact fun c' hc' => hcmd c' (List.mem_cons_of_mem _ hc')

/-- C1: when `GraphStore.syncFile` re-syncs a file, every DefinitionRecord
and DEFINES edge previously owned by that file is retracted and exactly
the new ones are inserted (the file's owned records after the sync are
precisely the new definitions); consequently, after any sequence of
GraphStore commands starting from the empty graph, every DefinitionRecord
is owned by exactly one FileRecord via a DEFINES edge and no two
DefinitionRecords with the same composite key exist. -/
theorem graphStore_retract_insert_no_orphans :
    (∀ (st : GraphState) (p fp : String) (ds : List DefRecord)
      (its : List String) (cs : List (String × String)),
      (∀ d ∈ ds, d.key.path = p) →
      (syncFile st p fp ds its cs).defs.filter
        (fun d => d.key.path == p) = ds ∧
      (syncFile st p fp ds its cs).defines.filter (fun e => e.1 == p) =
        ds.map (fun d => (p, d.key))) ∧
    (∀ cmds : List GraphCmd, (∀ c ∈ cmds, CmdWF c) →
      DefsWF (cmds.foldl applyCmd emptyGraph)) := by
  constructor
  · intro st p fp ds its cs hp
    constructor
    · rw [syncFile_defs, List.filter_append]
      have hA : (st.defs.filter (fun d => d.key.path != p)).filter
          (fun d => d.key.path == p) = [] := by
        rw [List.filter_filter, List.filter_eq_nil_iff]
        intro a _ hpa
        simp only [Bool.and_eq_true, beq_iff_eq, bne_iff_ne] at hpa
        exact hpa.2 hpa.1
      have hB : ds.filter (fun d => d.key.path == p) = ds :=
        List.filter_eq_self.mpr (fun d hd => by simp [hp d hd])
      rw [hA, hB, List.nil_append]
    · rw [syncFile_defines, List.filter_append]
      have hA : (st.defines.filter
          (fun e => e.1 != p && e.2.path != p)).filter
          (fun e => e.1 == p) = [] := by
        rw [List.filter_filter, List.filter_eq_nil_iff]
        intro a _ hpa
        simp only [Bool.and_eq_true, beq_iff_eq, bne_iff_ne] at hpa
        exact hpa.2.1 hpa.1
      have hB : (ds.map (fun d => (p, d.key))).filter (fun e => e.1 == p)
          = ds.map (fun d => (p, d.key)) :=
        List.filter_eq_self.mpr (fun e he => by
          rcases List.mem_map.mp he with ⟨x, _, rfl⟩
          simp)
      rw [hA, hB, List.nil_append]
  · exact fun cmds hcmds => DefsWF_foldl cmds emptyGraph DefsWF_empty hcmds

/-- The single definition of the C1 witness fixture. -/
def witnessFooDefs : List DefRecord :=
  [⟨⟨"a.ts", "foo", 0⟩, DefKind.functionKind, "foo()",
    "function foo() ...", 1, 2⟩]

/-- Witness for C1: a concrete sync of `a.ts` leaves exactly its new
definition and DEFINES edge owned by `a.ts`, and the resulting one-command
graph satisfies the no-orphans invariant. -/
theorem graphStore_retract_insert_no_orphans_witness :
    ((syncFile emptyGraph "a.ts" "h1" witnessFooDefs [] []).defs.filter
        (fun d => d.key.path == "a.ts") = witnessFooDefs ∧
      (syncFile emptyGraph "a.ts" "h1" witnessFooDefs [] []).defines.filter
        (fun e => e.1 == "a.ts") =
          witnessFooDefs.map (fun d => ("a.ts", d.key))) ∧
    DefsWF ([GraphCmd.sync "a.ts" "h1" witnessFooDefs [] []].foldl
      applyCmd emptyGraph) :=
  ⟨graphStore_retract_insert_no_orphans.1 emptyGraph "a.ts" "h1"
      witnessFooDefs [] [] (by decide),
    graphStore_retract_insert_no_orphans.2
      [GraphCmd.sync "a.ts" "h1" witnessFooDefs [] []]
      (by
        intro c hc
        rw [List.mem_singleton] at hc
        subst hc
        exact ⟨by decide, by decide⟩)⟩

/-! ### Scan idempotence -/

/-- `pruneFile` component equation: FileRecords. -/
theorem pruneFile_files (st : GraphState) (p : String) :
    (pruneFile st p).files = st.files.filter (fun f => f.1 != p) := rfl

/-- `scan` unfolding: prune the deleted files, then sync the new and
modified ones. -/
theorem scan_eq (parse : String → ParseResult) (st : GraphState)
    (inv : List (String × String)) :
    scan parse st inv =
      (inv.filter (fun pf => lookupFp st.files pf.1 != some pf.2)).foldl
        (syncOne parse (pathsOf inv))
        ((st.files.filter (fun f => !(pathsOf inv).contains f.1)).foldl
          (fun s f => pruneFile s f.1) st) := rfl

/-- `syncOne` component equation: FileRecords. -/
theorem syncOne_files (parse : String → ParseResult) (known : List String)
    (st : GraphState) (pf : String × String) :
    (syncOne parse known st pf).files = upsertFile st.files pf.1 pf.2 := rfl

/-- FileRecords surviving a prune fold were present before it and are not
among the pruned paths. -/
theorem mem_files_foldl_prune :
    ∀ (L : List (String × String)) (st : GraphState) (f : String × String),
      f ∈ (L.foldl (fun s x => pruneFile s x.1) st).files →
      f ∈ st.files ∧ f.1 ∉ L.map (·.1) := by
  intro L
  induction L with
  | nil => exact fun st f h => ⟨h, by simp⟩
  | cons x xs ih =>
    intro st f h
    rw [List.foldl_cons] at h
    obtain ⟨h1, h2⟩ := ih _ f h
    rw [pruneFile_files] at h1
    have h3 := List.mem_filter.mp h1
    refine ⟨h3.1, ?_⟩
    simp only [List.map_cons, List.mem_cons]
    push_neg
    exact ⟨by simpa using h3.2, h2⟩

/-- Lookups at a path no prune touches are unchanged by a prune fold. -/
theorem lookupFp_foldl_prune :
    ∀ (L : List (String × String)) (st : GraphState) {p : String},
      p ∉ L.map (·.1) →
      lookupFp ((L.foldl (fun s x => pruneFile s x.1) st).files) p =
        lookupFp st.files p := by
  intro L
  induction L with
  | nil => exact fun st _ _ => rfl
  | cons x xs ih =>
    intro st p hp
    simp only [List.map_cons, List.mem_cons] at hp
    push_neg at hp
    rw [List.foldl_cons, ih _ hp.2, pruneFile_files,
      lookupFp_filter_path_ne hp.1]

/-- Lookups at a path no sync touches are unchanged by a sync fold. -/
theorem lookupFp_foldl_syncOne_of_notMem (parse : String → ParseResult)
    (known : List String) :
    ∀ (L : List (String × String)) (st : GraphState) {p : String},
      p ∉ L.map (·.1) →
      lookupFp ((L.foldl (syncOne parse known) st).files) p =
        lookupFp st.files p := by
  intro L
  induction L with
  | nil => exact fun st _ _ => rfl
  | cons x xs ih =>
    intro st p hp
    simp only [List.map_cons, List.mem_cons] at hp
    push_neg at hp
    rw [List.foldl_cons, ih _ hp.2, syncOne_files,
      lookupFp_upsertFile_ne _ _ hp.1]

/-- A sync fold establishes the fingerprint of every entry it processes,
provided the processed paths are pairwise distinct. -/
theorem lookupFp_foldl_syncOne_of_mem (parse : String → ParseResult)
    (known : List String) :
    ∀ (L : List (String × String)) (st : GraphState) {p fp : String},
      (L.map (·.1)).Nodup → (p, fp) ∈ L →
      lookupFp ((L.foldl (syncOne parse known) st).files) p = some fp := by
  intro L
  induction L with
  | nil => intro st p fp _ h; simp at h
  | cons x xs ih =>
    intro st p fp hnd hmem
    simp only [List.map_cons, List.nodup_cons] at hnd
    rw [List.foldl_cons]
    rcases List.mem_cons.mp hmem with heq | hmem'
    · rw [lookupFp_foldl_syncOne_of_notMem parse known xs _
        (by rw [← heq] at hnd; simpa using hnd.1), syncOne_files]
      rw [← heq]
      exact lookupFp_upsertFile_self _ _ _
    · exact ih _ hnd.2 hmem'

/-- FileRecords present after a sync fold are among the synced paths or
were present before the fold. -/
theorem mem_files_foldl_syncOne (parse : String → ParseResult)
    (known : List String) :
    ∀ (L : List (String × String)) (st : GraphState) (f : String × String),
      f ∈ (L.foldl (syncOne parse known) st).files →
      f.1 ∈ L.map (·.1) ∨ f ∈ st.files := by
  intro L
  induction L with
  | nil => exact fun st f h => Or.inr h
  | cons x xs ih =>
    intro st f h
    rw [List.foldl_cons] at h
    rcases ih _ f h with h' | h'
    · exact Or.inl (List.mem_cons_of_mem _ h')
    · rw [syncOne_files] at h'
      rcases mem_upsertFile h' with heq | h''
      · left
        rw [heq]
        simp
      · exact Or.inr h''

/-- C2: running a scan twice with no on-disk changes is idempotent — the
second scan leaves the FileRecord, DefinitionRecord and edge sets exactly
as the first scan left them — and `ContentInventory.enumerate` run twice
on an unchanged root yields an identical path-to-fingerprint mapping. -/
theorem scan_idempotent (parse : String → ParseResult) (st : GraphState)
    (inv : List (String × String)) (hash : String → String)
    (disk : DiskState) (hnd : (inv.map (·.1)).Nodup) :
    scan parse (scan parse st inv) inv = scan parse st inv ∧
    enumerate hash disk = enumerate hash disk := by
  refine ⟨?_, rfl⟩
  set st' := scan parse st inv with hst'
  have hA : ∀ pf ∈ inv, lookupFp st'.files pf.1 = some pf.2 := by
    intro pf hpf
    rw [hst', scan_eq]
    by_cases hch : lookupFp st.files pf.1 = some pf.2
    · have hnotmem : pf.1 ∉ (inv.filter
          (fun x => lookupFp st.files x.1 != some x.2)).map (·.1) := by
        intro hm
        rcases List.mem_map.mp hm with ⟨⟨x1, x2⟩, hx, hx1⟩
        obtain ⟨hxinv, hxpred⟩ := List.mem_filter.mp hx
        have hx1' : x1 = pf.1 := hx1
        subst hx1'
        have hx2 : x2 = pf.2 := key_eq_of_nodup hnd hxinv hpf
        subst hx2
        rw [hch] at hxpred
        simp at hxpred
      rw [lookupFp_foldl_syncOne_of_notMem _ _ _ _ hnotmem]
      have hpnot : pf.1 ∉ (st.files.filter
          (fun f => !(pathsOf inv).contains f.1)).map (·.1) := by
        intro hm
        rcases List.mem_map.mp hm with ⟨f, hf, hf1⟩
        have hpred := (List.mem_filter.mp hf).2
        simp only [Bool.not_eq_true'] at hpred
        simp only [List.contains_eq_any_beq] at hpred
        rw [hf1] at hpred
        have hin : pf.1 ∈ pathsOf inv := List.mem_map_of_mem (·.1) hpf
        have : (pathsOf inv).any (fun x => pf.1 == x) = true :=
          List.any_eq_true.mpr ⟨pf.1, hin, by simp⟩
        rw [this] at hpred
        simp at hpred
      rw [lookupFp_foldl_prune _ _ hpnot]
      exact hch
    · have hmem : pf ∈ inv.filter
          (fun x => lookupFp st.files x.1 != some x.2) :=
        List.mem_filter.mpr ⟨hpf, by simpa using hch⟩
      exact lookupFp_foldl_syncOne_of_mem _ _ _ _
        (((List.filter_sublist _).map _).nodup hnd) hmem
  have hB : ∀ f ∈ st'.files, f.1 ∈ pathsOf inv := by
    intro f hf
    rw [hst', scan_eq] at hf
    rcases mem_files_foldl_syncOne _ _ _ _ f hf with h | h
    · rcases List.mem_map.mp h with ⟨x, hx, hx1⟩
      exact hx1 ▸ List.mem_map_of_mem (·.1) (List.mem_filter.mp hx).1
    · obtain ⟨hfs, hfn⟩ := mem_files_foldl_prune _ _ f h
      by_contra hcon
      apply hfn
      refine List.mem_map_of_mem (·.1) (List.mem_filter.mpr ⟨hfs, ?_⟩)
      simp [pathsOf] at hcon ⊢
      exact hcon
  have hdel : st'.files.filter (fun f => !(pathsOf inv).contains f.1) = [] := by
    rw [List.filter_eq_nil_iff]
    intro f hf
    simp only [Bool.not_eq_true']
    simp [hB f hf]
  have hchg : inv.filter
      (fun pf => lookupFp st'.files pf.1 != some pf.2) = [] := by
    rw [List.filter_eq_nil_iff]
    intro pf hpf
    simp [hA pf hpf]
  conv_lhs => rw [scan_eq]
  rw [hdel, hchg, List.foldl_nil, List.foldl_nil]

/-- Witness for C2: re-scanning the unchanged Scenario D project is a
no-op, and enumerate is deterministic on a concrete disk state. -/
theorem scan_idempotent_witness :
    scan scenarioDParse (scan scenarioDParse emptyGraph scenarioDInv)
        scenarioDInv = scan scenarioDParse emptyGraph scenarioDInv ∧
    enumerate (fun s => s) [("a.ts", "text")] =
      enumerate (fun s => s) [("a.ts", "text")] :=
  scan_idempotent scenarioDParse emptyGraph scenarioDInv (fun s => s)
    [("a.ts", "text")] (by decide)

/-! ### Prune cleanliness -/

/-- `pruneFile` component equation: definitions. -/
theorem pruneFile_defs (st : GraphState) (p : String) :
    (pruneFile st p).defs = st.defs.filter (fun d => d.key.path != p) := rfl

/-- `pruneFile` component equation: DEFINES edges. -/
theorem pruneFile_defines (st : GraphState) (p : String) :
    (pruneFile st p).defines =
      st.defines.filter (fun e => e.1 != p && e.2.path != p) := rfl

/-- `pruneFile` component equation: IMPORTS edges. -/
theorem pruneFile_imports (st : GraphState) (p : String) :
    (pruneFile st p).imports =
      st.imports.filter (fun e => e.1 != p && e.2 != p) := rfl

/-- `pruneFile` component equation: CALLS edges. -/
theorem pruneFile_calls (st : GraphState) (p : String) :
    (pruneFile st p).calls =
      st.calls.filter (fun e => e.1.path != p && e.2.path != p) := rfl

/-- `syncOne` unfolding into `syncFile`. -/
theorem syncOne_eq (parse : String → ParseResult) (known : List String)
    (st : GraphState) (pf : String × String) :
    syncOne parse known st pf =
      syncFile st pf.1 pf.2 (parse pf.1).defs
        ((parse pf.1).importSpecifiers.filterMap
          (fun s => resolve s pf.1 known))
        (parse pf.1).callSites := rfl

/-- No record or edge of the graph touches the path `p`. -/
def Untouched (p : String) (st : GraphState) : Prop :=
  p ∉ pathsOf st.files ∧
  (∀ d ∈ st.defs, d.key.path ≠ p) ∧
  (∀ e ∈ st.defines, e.1 ≠ p ∧ e.2.path ≠ p) ∧
  (∀ e ∈ st.imports, e.1 ≠ p ∧ e.2 ≠ p) ∧
  (∀ e ∈ st.calls, e.1.path ≠ p ∧ e.2.path ≠ p)

/-- A resolved import target is one of the known file paths. -/
theorem resolve_mem_known {s f t : String} {known : List String}
    (h : resolve s f known = some t) : t ∈ known := by
  rw [resolve] at h
  by_cases hrel : isRelative s = true
  · rw [if_pos hrel] at h
    have := List.find?_some h
    simpa using this
  · rw [if_neg hrel] at h
    exact absurd h (by simp)

/-- A resolved caller is the key of one of the synced definitions. -/
theorem resolveCaller_mem {ds : List DefRecord} {n : String} {k : DefKey}
    (h : resolveCaller ds n = some k) : ∃ d ∈ ds, d.key = k := by
  unfold resolveCaller at h
  rcases hfe : ds.filter (fun x => x.key.name == n) with _ | ⟨d, _ | ⟨d2, t⟩⟩ <;>
    rw [hfe] at h <;> simp at h
  refine ⟨d, ?_, h⟩
  have hd : d ∈ ds.filter (fun x => x.key.name == n) := by
    rw [hfe]
    exact List.mem_singleton_self d
  exact (List.mem_filter.mp hd).1

/-- A resolved callee is the key of one of the known definitions. -/
theorem resolveCallee_mem {allDefs : List DefRecord} {cp cn : String}
    {k : DefKey} (h : resolveCallee allDefs cp cn = some k) :
    ∃ d ∈ allDefs, d.key = k := by
  unfold resolveCallee at h
  rcases hfe : allDefs.filter
      (fun d => d.key.path == cp && d.key.name == cn)
    with _ | ⟨d, _ | ⟨d2, t⟩⟩ <;> rw [hfe] at h
  · rcases hf2 : allDefs.filter (fun d => d.key.name == cn)
      with _ | ⟨e, _ | ⟨e2, t2⟩⟩ <;> rw [hf2] at h <;> simp at h
    refine ⟨e, ?_, h⟩
    have he : e ∈ allDefs.filter (fun x => x.key.name == cn) := by
      rw [hf2]
      exact List.mem_singleton_self e
    exact (List.mem_filter.mp he).1
  · simp at h
    refine ⟨d, ?_, h⟩
    have hd : d ∈ allDefs.filter
        (fun x => x.key.path == cp && x.key.name == cn) := by
      rw [hfe]
      exact List.mem_singleton_self d
    exact (List.mem_filter.mp hd).1
  · simp at h

/-- Pruning any path preserves untouchedness. -/
theorem Untouched_pruneFile {p : String} {st : GraphState} (q : String)
    (h : Untouched p st) : Untouched p (pruneFile st q) := by
  obtain ⟨h1, h2, h3, h4, h5⟩ := h
  refine ⟨?_, ?_, ?_, ?_, ?_⟩
  · rw [pruneFile_files]
    intro hm
    rcases List.mem_map.mp hm with ⟨f, hf, hfp⟩
    exact h1 (List.mem_map.mpr ⟨f, (List.mem_filter.mp hf).1, hfp⟩)
  · intro d hd
    rw [pruneFile_defs] at hd
    exact h2 d (List.mem_filter.mp hd).1
  · intro e he
    rw [pruneFile_defines] at he
    exact h3 e (List.mem_filter.mp he).1
  · intro e he
    rw [pruneFile_imports] at he
    exact h4 e (List.mem_filter.mp he).1
  · intro e he
    rw [pruneFile_calls] at he
    exact h5 e (List.mem_filter.mp he).1

/-- Pruning a path makes it untouched: the FileRecord, all definitions it
owned, and every edge touching either are gone. -/
theorem Untouched_pruneFile_self (st : GraphState) (p : String) :
    Untouched p (pruneFile st p) := by
  refine ⟨?_, ?_, ?_, ?_, ?_⟩
  · rw [pruneFile_files]
    intro hm
    rcases List.mem_map.mp hm with ⟨f, hf, hfp⟩
    have hp2 := (List.mem_filter.mp hf).2
    simp [hfp] at hp2
  · intro d hd
    rw [pruneFile_defs] at hd
    simpa using (List.mem_filter.mp hd).2
  · intro e he
    rw [pruneFile_defines] at he
    have := (List.mem_filter.mp he).2
    simpa using this
  · intro e he
    rw [pruneFile_imports] at he
    have := (List.mem_filter.mp he).2
    simpa using this
  · intro e he
    rw [pruneFile_calls] at he
    have := (List.mem_filter.mp he).2
    simpa using this

/-- Syncing a different file, whose definitions are path-qualified to it
and whose import targets avoid `p`, preserves untouchedness of `p`. -/
theorem Untouched_syncFile {p q : String} {st : GraphState} (fp : String)
    {ds : List DefRecord} {its : List String}
    (cs : List (String × String)) (hq : q ≠ p)
    (hds : ∀ d ∈ ds, d.key.path = q) (hits : ∀ t ∈ its, t ≠ p)
    (h : Untouched p st) : Untouched p (syncFile st q fp ds its cs) := by
  obtain ⟨h1, h2, h3, h4, h5⟩ := h
  refine ⟨?_, ?_, ?_, ?_, ?_⟩
  · rw [syncFile_files]
    exact not_mem_paths_upsertFile fp h1 (Ne.symm hq)
  · intro d hd
    rw [syncFile_defs] at hd
    rcases List.mem_append.mp hd with hA | hB
    · exact h2 d (List.mem_filter.mp hA).1
    · rw [hds d hB]
      exact hq
  · intro e he
    rw [syncFile_defines] at he
    rcases List.mem_append.mp he with hA | hB
    · exact h3 e (List.mem_filter.mp hA).1
    · rcases List.mem_map.mp hB with ⟨d, hd, heq⟩
      rw [← heq]
      exact ⟨hq, by rw [hds d hd]; exact hq⟩
  · intro e he
    rw [syncFile_imports] at he
    rcases List.mem_append.mp he with hA | hB
    · exact h4 e (List.mem_filter.mp hA).1
    · rcases List.mem_map.mp hB with ⟨t, ht, heq⟩
      rw [← heq]
      exact ⟨hq, hits t (List.mem_dedup.mp ht)⟩
  · intro e he
    rw [syncFile_calls] at he
    rcases List.mem_append.mp he with hA | hB
    · exact h5 e (List.mem_filter.mp hA).1
    · have hB' := List.mem_dedup.mp hB
      rcases List.mem_filterMap.mp hB' with ⟨c, _, hres⟩
      rcases hca : resolveCaller ds c.1 with _ | a
      · rw [hca] at hres
        simp at hres
      · rcases hcb : resolveCallee
            (st.defs.filter (fun d => d.key.path != q) ++ ds) q c.2
          with _ | b
        · rw [hca, hcb] at hres
          simp at hres
        · rw [hca, hcb] at hres
          simp only [Option.some.injEq] at hres
          rw [← hres]
          obtain ⟨d, hd, hdk⟩ := resolveCaller_mem hca
          obtain ⟨d2, hd2, hdk2⟩ := resolveCallee_mem hcb
          constructor
          · rw [← hdk, hds d hd]
            exact hq
          · rw [← hdk2]
            rcases List.mem_append.mp hd2 with hA2 | hB2
            · exact h2 d2 (List.mem_filter.mp hA2).1
            · rw [hds d2 hB2]
              exact hq

/-- Any prune fold preserves untouchedness. -/
theorem Untouched_foldl_prune {p : String} :
    ∀ (L : List (String × String)) (st : GraphState),
      Untouched p st →
      Untouched p (L.foldl (fun s x => pruneFile s x.1) st) := by
  intro L
  induction L with
  | nil => exact fun st h => h
  | cons x xs ih =>
    intro st h
    rw [List.foldl_cons]
    exact ih _ (Untouched_pruneFile x.1 h)

/-- A prune fold that prunes `p` leaves `p` untouched. -/
theorem Untouched_foldl_prune_mem {p : String} :
    ∀ (L : List (String × String)) (st : GraphState),
      p ∈ L.map (·.1) →
      Untouched p (L.foldl (fun s x => pruneFile s x.1) st) := by
  intro L
  induction L with
  | nil => intro st h; simp at h
  | cons x xs ih =>
    intro st hmem
    rw [List.foldl_cons]
    simp only [List.map_cons, List.mem_cons] at hmem
    by_cases heq : p = x.1
    · exact Untouched_foldl_prune xs _ (heq ▸ Untouched_pruneFile_self st x.1)
    · rcases hmem with h | h
      · exact absurd h heq
      · exact ih _ h

/-- A sync fold over files drawn from a known-path set avoiding `p`
preserves untouchedness of `p`. -/
theorem Untouched_foldl_syncOne {p : String} (parse : String → ParseResult)
    (known : List String) (hknown : p ∉ known)
    (hparse : ∀ q ∈ known, ∀ d ∈ (parse q).defs, d.key.path = q) :
    ∀ (L : List (String × String)) (st : GraphState),
      (∀ pf ∈ L, pf.1 ∈ known) → Untouched p st →
      Untouched p (L.foldl (syncOne parse known) st) := by
  intro L
  induction L with
  | nil => exact fun st _ h => h
  | cons x xs ih =>
    intro st hL h
    rw [List.foldl_cons]
    refine ih _ (fun pf hpf => hL pf (List.mem_cons_of_mem _ hpf)) ?_
    rw [syncOne_eq]
    have hx : x.1 ∈ known := hL x (List.mem_cons_self _ _)
    refine Untouched_syncFile x.2 _ (fun e => hknown (e ▸ hx)) (hparse x.1 hx)
      (fun t ht => ?_) h
    rcases List.mem_filterMap.mp ht with ⟨s, _, hres⟩
    exact fun e => hknown (e ▸ resolve_mem_known hres)

/-- C3: `GraphStore.pruneFile(path)` removes the FileRecord, all
DefinitionRecords it owned, and every DEFINES / IMPORTS / CALLS edge
incident to the file or its definitions; and if a file present in the
graph is absent from the inventory of a later scan, after that scan none
of its records or touching edges remain. -/
theorem graphStore_prune_clean :
    (∀ (st : GraphState) (p : String), Untouched p (pruneFile st p)) ∧
    (∀ (parse : String → ParseResult) (st : GraphState)
      (inv : List (String × String)) (p : String),
      (∀ q ∈ pathsOf inv, ∀ d ∈ (parse q).defs, d.key.path = q) →
      p ∈ pathsOf st.files → p ∉ pathsOf inv →
      Untouched p (scan parse st inv)) := by
  constructor
  · exact Untouched_pruneFile_self
  · intro parse st inv p hparse hmem hnot
    rw [scan_eq]
    refine Untouched_foldl_syncOne parse (pathsOf inv) hnot hparse _ _
      (fun pf hpf =>
        List.mem_map_of_mem (·.1) (List.mem_filter.mp hpf).1) ?_
    apply Untouched_foldl_prune_mem
    rcases List.mem_map.mp hmem with ⟨f, hf, hfp⟩
    refine List.mem_map.mpr ⟨f, List.mem_filter.mpr ⟨hf, ?_⟩, hfp⟩
    have hfn : f.1 ∉ pathsOf inv := by
      rw [hfp]
      exact hnot
    simpa using hfn

/-- Parse results of the Scenario B project before the deletion: `a.ts`
defines `foo`, imports `./b` and calls `bar`; `b.ts` defines `bar`. -/
def scenarioBParse : String → ParseResult := fun p =>
  if p == "a.ts" then
    ⟨[⟨⟨"a.ts", "foo", 0⟩, DefKind.functionKind, "foo()",
      "function foo() ...", 1, 3⟩], ["./b"], [("foo", "bar")]⟩
  else if p == "b.ts" then
    ⟨[⟨⟨"b.ts", "bar", 0⟩, DefKind.functionKind, "bar()",
      "function bar() ...", 1, 3⟩], [], []⟩
  else ⟨[], [], []⟩

/-- The graph after the first Scenario B scan (both files present). -/
def scenarioBState1 : GraphState :=
  scan scenarioBParse emptyGraph [("a.ts", "ha1"), ("b.ts", "hb1")]

/-- Witness for C3: after re-scanning with `b.ts` gone from the inventory,
nothing of `b.ts` remains in the graph. -/
theorem graphStore_prune_clean_witness :
    Untouched "b.ts" (scan scenarioBParse scenarioBState1 [("a.ts", "ha1")]) :=
  graphStore_prune_clean.2 scenarioBParse scenarioBState1 [("a.ts", "ha1")]
    "b.ts" (by decide) (by decide) (by decide)

end HuggingTree
